import Mathlib

/-!
Verification of the protobuf wire-format walker in
`subsys/tracing/perfetto/decode_trace.py`.

Bytes are modelled as natural numbers; the byte buffer is a `List Nat`.
Indexing `data[pos]` in the Python source is always guarded by
`pos < len(data)`, so it is embedded as `data.getD pos 0`, which agrees
with the source on every in-bounds access.
-/

/-! ### Bit-arithmetic helpers -/

/-- Oring a value below `2 ^ s` with a value shifted left by `s` is addition:
the two operands occupy disjoint bit ranges. -/
theorem lor_shl_eq_add {r m s : Nat} (h : r < 2 ^ s) :
    r ||| (m <<< s) = r + m * 2 ^ s := by
  apply Nat.eq_of_testBit_eq
  intro i
  simp only [Nat.testBit_or, Nat.testBit_shiftLeft]
  rw [show r + m * 2 ^ s = 2 ^ s * m + r by ring, Nat.testBit_mul_pow_two_add m h i]
  by_cases hi : i < s
  · have hs : ¬ s ≤ i := Nat.not_le.mpr hi
    simp [hi, hs]
  · have hle : s ≤ i := Nat.le_of_not_lt hi
    have hr : r.testBit i = false :=
      Nat.testBit_lt_two_pow (lt_of_lt_of_le h (Nat.pow_le_pow_right (by norm_num) hle))
    simp [hi, hr, hle]

/-- Masking with `0x7f` is reduction modulo 128. -/
theorem and_127_eq_mod (b : Nat) : b &&& 127 = b % 128 := by
  have h := Nat.and_pow_two_sub_one_eq_mod b 7
  norm_num at h
  exact h

/-- A byte below 128 has a clear continuation bit. -/
theorem and_128_of_lt {b : Nat} (h : b < 128) : b &&& 128 = 0 := by
  apply Nat.eq_of_testBit_eq
  intro i
  simp only [Nat.testBit_and, Nat.zero_testBit]
  rw [show (128 : Nat) = 2 ^ 7 by norm_num, Nat.testBit_two_pow]
  by_cases hi : (7 : Nat) = i
  · subst hi
    simp [Nat.testBit_lt_two_pow (show b < 2 ^ 7 by omega)]
  · simp [hi]

/-- A byte of the form `a + 128` with `a < 128` has the continuation bit set. -/
theorem and_128_of_add {a : Nat} (h : a < 128) : (a + 128) &&& 128 ≠ 0 := by
  intro hz
  have h7 : (a + 128).testBit 7 = true := by
    have ht := Nat.testBit_mul_pow_two_add 1 (show a < 2 ^ 7 by omega) 7
    rw [show 2 ^ 7 * 1 + a = a + 128 by ring] at ht
    simpa using ht
  have hc : ((a + 128) &&& 128).testBit 7 = false := by
    rw [hz]; exact Nat.zero_testBit 7
  rw [Nat.testBit_and, h7, show (128 : Nat) = 2 ^ 7 by norm_num,
    Nat.testBit_two_pow_self] at hc
  simp at hc

/-! ### List indexing helpers -/

/-- In-bounds `getD` is plain indexing. -/
theorem getD_of_lt (data : List Nat) {pos : Nat} (h : pos < data.length) (d : Nat) :
    data.getD pos d = data[pos] := by
  rw [List.getD_eq_getElem?_getD, List.getElem?_eq_getElem h, Option.getD_some]

/-- Reading an appended list past the first part reads the second part. -/
theorem getD_append_right (pre l : List Nat) (k d : Nat) :
    (pre ++ l).getD (pre.length + k) d = l.getD k d := by
  induction pre with
  | nil => simp
  | cons a pre ih =>
    simpa [Nat.succ_add] using ih

/-- Reading an appended list at the head of the second part gives its head. -/
theorem getD_append_head (pre : List Nat) (b : Nat) (l : List Nat) (d : Nat) :
    (pre ++ b :: l).getD pre.length d = b := by
  have h := getD_append_right pre (b :: l) 0 d
  simpa using h

/-! ### The varint decoder, from `decode_varint` in the source -/

/-- Loop of `decode_varint`: `result` and `shift` are the Python locals;
each step ors in the low 7 bits of the current byte and stops when the
continuation bit (0x80) is clear or the buffer ends. -/
def decodeVarintAux (data : List Nat) (pos result shift : Nat) : Nat × Nat :=
  if pos < data.length then
    let byte := data.getD pos 0
    let result' := result ||| ((byte &&& 0x7f) <<< shift)
    if byte &&& 0x80 = 0 then (result', pos + 1)
    else decodeVarintAux data (pos + 1) result' (shift + 7)
  else (result, pos)
termination_by data.length - pos
decreasing_by omega

/-- Embedding of `decode_varint(data, pos)`: decode a base-128 little-endian
varint starting at `pos`, returning `(value, new_pos)`. -/
def decode_varint (data : List Nat) (pos : Nat) : Nat × Nat :=
  decodeVarintAux data pos 0 0

theorem decodeVarintAux_stop {data : List Nat} {pos : Nat} (h : ¬ pos < data.length)
    (result shift : Nat) : decodeVarintAux data pos result shift = (result, pos) := by
  rw [decodeVarintAux]
  simp [h]

theorem decodeVarintAux_last {data : List Nat} {pos : Nat} (h : pos < data.length)
    (hb : data.getD pos 0 &&& 0x80 = 0) (result shift : Nat) :
    decodeVarintAux data pos result shift =
      (result ||| ((data.getD pos 0 &&& 0x7f) <<< shift), pos + 1) := by
  have hb' : data[pos] &&& 0x80 = 0 := by rwa [getD_of_lt data h] at hb
  rw [decodeVarintAux]
  simp [h, hb', getD_of_lt data h]

theorem decodeVarintAux_cont {data : List Nat} {pos : Nat} (h : pos < data.length)
    (hb : data.getD pos 0 &&& 0x80 ≠ 0) (result shift : Nat) :
    decodeVarintAux data pos result shift =
      decodeVarintAux data (pos + 1)
        (result ||| ((data.getD pos 0 &&& 0x7f) <<< shift)) (shift + 7) := by
  have hb' : ¬ data[pos] &&& 0x80 = 0 := by rwa [getD_of_lt data h] at hb
  rw [decodeVarintAux]
  simp [h, hb', getD_of_lt data h]

/-- The decoder never moves backwards. -/
theorem decodeVarintAux_pos_le (data : List Nat) (pos result shift : Nat) :
    pos ≤ (decodeVarintAux data pos result shift).2 := by
  by_cases h : pos < data.length
  · by_cases hb : data.getD pos 0 &&& 0x80 = 0
    · rw [decodeVarintAux_last h hb]
      exact Nat.le_succ pos
    · rw [decodeVarintAux_cont h hb]
      have := decodeVarintAux_pos_le data (pos + 1)
        (result ||| ((data.getD pos 0 &&& 0x7f) <<< shift)) (shift + 7)
      omega
  · rw [decodeVarintAux_stop h]
termination_by data.length - pos
decreasing_by omega

/-- Starting strictly inside the buffer, the decoder consumes at least one byte. -/
theorem decode_varint_pos_lt {data : List Nat} {pos : Nat} (h : pos < data.length) :
    pos < (decode_varint data pos).2 := by
  unfold decode_varint
  by_cases hb : data.getD pos 0 &&& 0x80 = 0
  · rw [decodeVarintAux_last h hb]
    exact Nat.lt_succ_self pos
  · rw [decodeVarintAux_cont h hb]
    have := decodeVarintAux_pos_le data (pos + 1)
      (0 ||| ((data.getD pos 0 &&& 0x7f) <<< 0)) (0 + 7)
    omega

/-! ### The field skipper, from `skip_field` in the source -/

/-- Loop of the wire-type-0 branch of `skip_field`: advance while the buffer
has bytes left and the current byte has the continuation bit set. -/
def skipVarintScan (data : List Nat) (pos : Nat) : Nat :=
  if h : pos < data.length ∧ data.getD pos 0 &&& 0x80 ≠ 0 then
    skipVarintScan data (pos + 1)
  else pos
termination_by data.length - pos
decreasing_by omega

theorem skipVarintScan_stop {data : List Nat} {pos : Nat}
    (h : ¬ (pos < data.length ∧ data.getD pos 0 &&& 0x80 ≠ 0)) :
    skipVarintScan data pos = pos := by
  rw [skipVarintScan, dif_neg h]

theorem skipVarintScan_step {data : List Nat} {pos : Nat}
    (h : pos < data.length ∧ data.getD pos 0 &&& 0x80 ≠ 0) :
    skipVarintScan data pos = skipVarintScan data (pos + 1) := by
  rw [skipVarintScan, dif_pos h]

/-- The scan never moves backwards. -/
theorem skipVarintScan_le (data : List Nat) (pos : Nat) :
    pos ≤ skipVarintScan data pos := by
  by_cases h : pos < data.length ∧ data.getD pos 0 &&& 0x80 ≠ 0
  · rw [skipVarintScan_step h]
    have := skipVarintScan_le data (pos + 1)
    omega
  · rw [skipVarintScan_stop h]
termination_by data.length - pos
decreasing_by omega

/-- Embedding of `skip_field(data, pos, wire_type)`; the `ValueError` raised on
an unrecognized wire type is modelled as `none`. -/
def skip_field (data : List Nat) (pos wire_type : Nat) : Option Nat :=
  if wire_type = 0 then
    some (skipVarintScan data pos + 1)
  else if wire_type = 1 then
    some (pos + 8)
  else if wire_type = 2 then
    let r := decode_varint data pos
    some (r.2 + r.1)
  else if wire_type = 5 then
    some (pos + 4)
  else
    none

/-- When `skip_field` returns an offset, it is at least the offset it was given. -/
theorem skip_field_le {data : List Nat} {pos wire_type pos' : Nat}
    (h : skip_field data pos wire_type = some pos') : pos ≤ pos' := by
  unfold skip_field at h
  split at h
  · have hs := skipVarintScan_le data pos
    simp only [Option.some.injEq] at h
    omega
  · split at h
    · simp only [Option.some.injEq] at h
      omega
    · split at h
      · have h2 := decodeVarintAux_pos_le data pos 0 0
        simp only [Option.some.injEq] at h
        unfold decode_varint at h
        omega
      · split at h
        · simp only [Option.some.injEq] at h
          omega
        · exact absurd h (by simp)

/-! ### The raw field-number enumerator loop in `print_packet` -/

/-- One iteration of the enumerator loop: decode the tag varint at `pos`,
extract the wire type, and skip the field payload. -/
def nextPos (data : List Nat) (pos : Nat) : Option Nat :=
  skip_field data (decode_varint data pos).2 ((decode_varint data pos).1 &&& 0x7)

/-- An iteration that starts strictly inside the buffer makes strict progress. -/
theorem nextPos_progress {data : List Nat} {pos pos' : Nat} (h : pos < data.length)
    (hs : nextPos data pos = some pos') : pos < pos' := by
  have h1 := decode_varint_pos_lt h
  have h2 := skip_field_le hs
  omega

/-- Embedding of the raw field enumerator in `print_packet`: repeatedly decode
a tag, record `tag >> 3`, and advance with `skip_field`; a raised decode error
(`nextPos = none`) ends the loop after the current field number was recorded. -/
def enumFields (data : List Nat) (pos : Nat) : List Nat :=
  if h : pos < data.length then
    match hs : nextPos data pos with
    | some pos' => ((decode_varint data pos).1 >>> 3) :: enumFields data pos'
    | none => [(decode_varint data pos).1 >>> 3]
  else []
termination_by data.length - pos
decreasing_by
  have := nextPos_progress h hs
  omega

/-- The field-number list produced by the while-loop of `print_packet`. -/
def field_numbers (data : List Nat) : List Nat :=
  enumFields data 0

theorem enumFields_stop {data : List Nat} {pos : Nat} (h : ¬ pos < data.length) :
    enumFields data pos = [] := by
  rw [enumFields]
  simp [h]

theorem enumFields_step_some {data : List Nat} {pos pos' : Nat} (h : pos < data.length)
    (hs : nextPos data pos = some pos') :
    enumFields data pos = ((decode_varint data pos).1 >>> 3) :: enumFields data pos' := by
  rw [enumFields]
  rw [dif_pos h]
  split
  · rename_i p hp
    rw [hs] at hp
    cases hp
    rfl
  · rename_i hp
    rw [hs] at hp
    cases hp

theorem enumFields_step_none {data : List Nat} {pos : Nat} (h : pos < data.length)
    (hs : nextPos data pos = none) :
    enumFields data pos = [(decode_varint data pos).1 >>> 3] := by
  rw [enumFields]
  rw [dif_pos h]
  split
  · rename_i p hp
    rw [hs] at hp
    cases hp
  · rfl

/-! ### The unknown-field reporter in `print_packet` -/

/-- The fixed allow-list `known_field_nums` from `print_packet`. -/
def known_field_nums : List Nat := [8, 10, 13, 11, 60, 12]

/-- Embedding of `[f for f in field_numbers if f not in known_field_nums]`. -/
def unknown_fields (fns : List Nat) : List Nat :=
  fns.filter (fun f => decide (f ∉ known_field_nums))

/-- Embedding of `sorted(set(unknown_fields))`: the distinct unknown field
numbers in increasing order. -/
def sorted_unknown (fns : List Nat) : List Nat :=
  (unknown_fields fns).toFinset.sort (· ≤ ·)

/-- Embedding of the `if unknown_fields:` guard: the report line is printed
exactly when the filtered list is non-empty. -/
def emits_report (fns : List Nat) : Bool :=
  !(unknown_fields fns).isEmpty

/-! ### Sequence-flag rendering in `print_packet` -/

/-- Embedding of the `flags` list built for `sequence_flags`: bit 0 appends
INCREMENTAL_STATE_CLEARED, then bit 1 appends NEEDS_INCREMENTAL_STATE. -/
def sequence_flag_names (flags : Nat) : List String :=
  (if flags &&& 1 ≠ 0 then ["INCREMENTAL_STATE_CLEARED"] else []) ++
    (if flags &&& 2 ≠ 0 then ["NEEDS_INCREMENTAL_STATE"] else [])

/-! ### Spec-side wire-format encoder

The source only decodes; the well-formed buffers that the spec's claims
quantify over are built here, following the spec's description of the wire
format: each field is a tag varint `(field_number << 3) | wire_type`
followed by a payload of the shape the wire type dictates. -/

/-- Base-128 little-endian varint encoding, per the spec: 7 value bits per
byte, least-significant group first, continuation bit 0x80 on every byte
but the last. -/
def encode_varint (n : Nat) : List Nat :=
  if n < 128 then [n]
  else (n % 128 + 128) :: encode_varint (n / 128)
termination_by n
decreasing_by exact Nat.div_lt_self (by omega) (by omega)

theorem encode_varint_ne_nil (n : Nat) : encode_varint n ≠ [] := by
  rw [encode_varint]
  split
  · simp
  · simp

theorem encode_varint_length_pos (n : Nat) : 0 < (encode_varint n).length :=
  List.length_pos.mpr (encode_varint_ne_nil n)

/-- Payload of one wire-format field; the constructor fixes the wire type. -/
inductive FieldPayload where
  | varintP (v : Nat)
  | fixed64P (bs : List Nat)
  | lenP (bs : List Nat)
  | fixed32P (bs : List Nat)

/-- Wire type of a payload, as written into the low 3 bits of the tag. -/
def wireTypeOf : FieldPayload → Nat
  | .varintP _ => 0
  | .fixed64P _ => 1
  | .lenP _ => 2
  | .fixed32P _ => 5

/-- Bytes of a payload: a varint field carries an encoded varint, a
length-delimited field carries its length as a varint and then its bytes,
fixed-width fields carry their bytes. -/
def payloadBytes : FieldPayload → List Nat
  | .varintP v => encode_varint v
  | .fixed64P bs => bs
  | .lenP bs => encode_varint bs.length ++ bs
  | .fixed32P bs => bs

/-- Encoding of one field: tag varint, then payload. -/
def encodeField (f : Nat × FieldPayload) : List Nat :=
  encode_varint ((f.1 <<< 3) ||| wireTypeOf f.2) ++ payloadBytes f.2

/-- Encoding of a packet: concatenation of its field encodings. -/
def encodeFields : List (Nat × FieldPayload) → List Nat
  | [] => []
  | f :: fs => encodeField f ++ encodeFields fs

/-- A field is well-formed when its fixed-width payload has the exact width
its wire type dictates; varint and length-delimited payloads are always
well-formed by construction. -/
def wellFormedField : Nat × FieldPayload → Prop
  | (_, .varintP _) => True
  | (_, .fixed64P bs) => bs.length = 8
  | (_, .lenP _) => True
  | (_, .fixed32P bs) => bs.length = 4

instance (f : Nat × FieldPayload) : Decidable (wellFormedField f) := by
  obtain ⟨n, p⟩ := f
  cases p <;> simp only [wellFormedField] <;> infer_instance

/-- Value accumulated by `decode_varint` from a run of bytes, 7 bits per
byte, least-significant first. -/
def varintAccum : List Nat → Nat
  | [] => 0
  | b :: bs => (b &&& 0x7f) + 128 * varintAccum bs

/-! ### Decoding an encoded varint -/

/-- Running the decoder loop over an encoded varint embedded at position
`pre.length` accumulates exactly the encoded value at the current shift and
stops right after the varint. -/
theorem decodeVarintAux_encode (n : Nat) (pre suf : List Nat) (r s : Nat)
    (hr : r < 2 ^ s) :
    decodeVarintAux (pre ++ (encode_varint n ++ suf)) pre.length r s =
      (r + n * 2 ^ s, pre.length + (encode_varint n).length) := by
  rw [encode_varint]
  by_cases hn : n < 128
  · rw [if_pos hn]
    have hlen : pre.length < (pre ++ ([n] ++ suf)).length := by
      rw [List.length_append]
      simp
    have hb : (pre ++ ([n] ++ suf)).getD pre.length 0 = n := by
      simpa using getD_append_head pre n suf 0
    have hterm : (pre ++ ([n] ++ suf)).getD pre.length 0 &&& 0x80 = 0 := by
      rw [hb]; exact and_128_of_lt hn
    rw [decodeVarintAux_last hlen hterm, hb]
    have h127 : n &&& 0x7f = n := by rw [and_127_eq_mod]; omega
    rw [h127, lor_shl_eq_add hr]
    simp
  · rw [if_neg hn]
    rw [List.cons_append]
    have hm : n % 128 < 128 := Nat.mod_lt n (by omega)
    have hlen : pre.length
        < (pre ++ ((n % 128 + 128) :: (encode_varint (n / 128) ++ suf))).length := by
      rw [List.length_append, List.length_cons]
      omega
    have hb : (pre ++ ((n % 128 + 128) :: (encode_varint (n / 128) ++ suf))).getD
        pre.length 0 = n % 128 + 128 :=
      getD_append_head pre (n % 128 + 128) (encode_varint (n / 128) ++ suf) 0
    have hcont : (pre ++ ((n % 128 + 128) :: (encode_varint (n / 128) ++ suf))).getD
        pre.length 0 &&& 0x80 ≠ 0 := by
      rw [hb]; exact and_128_of_add hm
    rw [decodeVarintAux_cont hlen hcont, hb]
    have h127 : (n % 128 + 128) &&& 0x7f = n % 128 := by
      rw [and_127_eq_mod]; omega
    rw [h127, lor_shl_eq_add hr]
    have hr' : r + n % 128 * 2 ^ s < 2 ^ (s + 7) := by
      have hp : (2 : Nat) ^ (s + 7) = 2 ^ s * 128 := by rw [pow_add]; norm_num
      have hmul : n % 128 * 2 ^ s ≤ 127 * 2 ^ s :=
        Nat.mul_le_mul_right _ (by omega)
      omega
    have hih := decodeVarintAux_encode (n / 128) (pre ++ [n % 128 + 128]) suf
      (r + n % 128 * 2 ^ s) (s + 7) hr'
    have hshape : (pre ++ [n % 128 + 128]) ++ (encode_varint (n / 128) ++ suf)
        = pre ++ ((n % 128 + 128) :: (encode_varint (n / 128) ++ suf)) := by
      simp
    have hplen : (pre ++ [n % 128 + 128]).length = pre.length + 1 := by simp
    rw [hshape, hplen] at hih
    rw [hih]
    have hval : r + n % 128 * 2 ^ s + n / 128 * 2 ^ (s + 7) = r + n * 2 ^ s := by
      have hdm : 128 * (n / 128) + n % 128 = n := Nat.div_add_mod n 128
      calc r + n % 128 * 2 ^ s + n / 128 * 2 ^ (s + 7)
          = r + (128 * (n / 128) + n % 128) * 2 ^ s := by rw [pow_add]; ring
        _ = r + n * 2 ^ s := by rw [hdm]
    rw [hval]
    rw [List.length_cons]
    simp
    omega
termination_by n
decreasing_by exact Nat.div_lt_self (by omega) (by omega)

/-- Decoding an encoded varint at position `pre.length` returns the encoded
value and the offset just past the varint. -/
theorem decode_varint_encode (n : Nat) (pre suf : List Nat) :
    decode_varint (pre ++ (encode_varint n ++ suf)) pre.length =
      (n, pre.length + (encode_varint n).length) := by
  unfold decode_varint
  have h := decodeVarintAux_encode n pre suf 0 0 (by norm_num)
  simpa using h

/-- Decoding an encoded varint at the start of the buffer. -/
theorem decode_varint_encode_nil (n : Nat) (suf : List Nat) :
    decode_varint (encode_varint n ++ suf) 0 = (n, (encode_varint n).length) := by
  have h := decode_varint_encode n [] suf
  simpa using h

/-- The wire-type-0 scan over an encoded varint stops on its final byte. -/
theorem skipVarintScan_encode (n : Nat) (pre suf : List Nat) :
    skipVarintScan (pre ++ (encode_varint n ++ suf)) pre.length =
      pre.length + ((encode_varint n).length - 1) := by
  rw [encode_varint]
  by_cases hn : n < 128
  · rw [if_pos hn]
    have hb : (pre ++ ([n] ++ suf)).getD pre.length 0 = n := by
      simpa using getD_append_head pre n suf 0
    rw [skipVarintScan_stop (by rw [hb]; simp [and_128_of_lt hn])]
    simp
  · rw [if_neg hn]
    rw [List.cons_append]
    have hm : n % 128 < 128 := Nat.mod_lt n (by omega)
    have hlen : pre.length
        < (pre ++ ((n % 128 + 128) :: (encode_varint (n / 128) ++ suf))).length := by
      rw [List.length_append, List.length_cons]
      omega
    have hb : (pre ++ ((n % 128 + 128) :: (encode_varint (n / 128) ++ suf))).getD
        pre.length 0 = n % 128 + 128 :=
      getD_append_head pre (n % 128 + 128) (encode_varint (n / 128) ++ suf) 0
    rw [skipVarintScan_step ⟨hlen, by rw [hb]; exact and_128_of_add hm⟩]
    have hih := skipVarintScan_encode (n / 128) (pre ++ [n % 128 + 128]) suf
    have hshape : (pre ++ [n % 128 + 128]) ++ (encode_varint (n / 128) ++ suf)
        = pre ++ ((n % 128 + 128) :: (encode_varint (n / 128) ++ suf)) := by
      simp
    have hplen : (pre ++ [n % 128 + 128]).length = pre.length + 1 := by simp
    rw [hshape, hplen] at hih
    rw [hih]
    have := encode_varint_length_pos (n / 128)
    rw [List.length_cons]
    omega
termination_by n
decreasing_by exact Nat.div_lt_self (by omega) (by omega)

/-! ### Position-shift lemmas: the walker only looks at bytes from `pos` on -/

theorem decodeVarintAux_shift (pre l : List Nat) (k r s : Nat) :
    decodeVarintAux (pre ++ l) (pre.length + k) r s =
      ((decodeVarintAux l k r s).1, pre.length + (decodeVarintAux l k r s).2) := by
  by_cases hk : k < l.length
  · have hk' : pre.length + k < (pre ++ l).length := by
      rw [List.length_append]; omega
    have hb : (pre ++ l).getD (pre.length + k) 0 = l.getD k 0 :=
      getD_append_right pre l k 0
    by_cases hc : l.getD k 0 &&& 0x80 = 0
    · rw [decodeVarintAux_last hk' (by rw [hb]; exact hc) r s,
        decodeVarintAux_last hk hc r s, hb]
      simp [Nat.add_assoc]
    · rw [decodeVarintAux_cont hk' (by rw [hb]; exact hc) r s,
        decodeVarintAux_cont hk hc r s, hb]
      rw [show pre.length + k + 1 = pre.length + (k + 1) by omega]
      exact decodeVarintAux_shift pre l (k + 1)
        (r ||| ((l.getD k 0 &&& 0x7f) <<< s)) (s + 7)
  · have hk' : ¬ pre.length + k < (pre ++ l).length := by
      rw [List.length_append]; omega
    rw [decodeVarintAux_stop hk' r s, decodeVarintAux_stop hk r s]
termination_by l.length - k
decreasing_by omega

theorem decode_varint_shift (pre l : List Nat) (k : Nat) :
    decode_varint (pre ++ l) (pre.length + k) =
      ((decode_varint l k).1, pre.length + (decode_varint l k).2) := by
  unfold decode_varint
  exact decodeVarintAux_shift pre l k 0 0

theorem skipVarintScan_shift (pre l : List Nat) (k : Nat) :
    skipVarintScan (pre ++ l) (pre.length + k) = pre.length + skipVarintScan l k := by
  have hb : (pre ++ l).getD (pre.length + k) 0 = l.getD k 0 :=
    getD_append_right pre l k 0
  by_cases h : k < l.length ∧ l.getD k 0 &&& 0x80 ≠ 0
  · have h' : pre.length + k < (pre ++ l).length ∧
        (pre ++ l).getD (pre.length + k) 0 &&& 0x80 ≠ 0 := by
      constructor
      · rw [List.length_append]; omega
      · rw [hb]; exact h.2
    rw [skipVarintScan_step h', skipVarintScan_step h]
    rw [show pre.length + k + 1 = pre.length + (k + 1) by omega]
    exact skipVarintScan_shift pre l (k + 1)
  · have h' : ¬ (pre.length + k < (pre ++ l).length ∧
        (pre ++ l).getD (pre.length + k) 0 &&& 0x80 ≠ 0) := by
      rw [List.length_append, hb]
      intro hc
      exact h ⟨by omega, hc.2⟩
    rw [skipVarintScan_stop h', skipVarintScan_stop h]
termination_by l.length - k
decreasing_by omega

theorem skip_field_shift (pre l : List Nat) (k wt : Nat) :
    skip_field (pre ++ l) (pre.length + k) wt =
      (skip_field l k wt).map (fun x => pre.length + x) := by
  unfold skip_field
  by_cases h0 : wt = 0
  · simp only [h0, if_pos rfl, Option.map_some]
    rw [skipVarintScan_shift pre l k]
    simp [Nat.add_assoc]
  · by_cases h1 : wt = 1
    · simp [h0, h1, Nat.add_assoc]
    · by_cases h2 : wt = 2
      · simp only [h0, h2, if_neg, if_pos rfl, Option.map_some, reduceIte]
        rw [show decode_varint (pre ++ l) (pre.length + k)
            = ((decode_varint l k).1, pre.length + (decode_varint l k).2)
          from decode_varint_shift pre l k]
        simp [Nat.add_assoc]
      · by_cases h5 : wt = 5
        · simp [h0, h1, h2, h5, Nat.add_assoc]
        · simp [h0, h1, h2, h5]

theorem nextPos_shift (pre l : List Nat) (k : Nat) :
    nextPos (pre ++ l) (pre.length + k) =
      (nextPos l k).map (fun x => pre.length + x) := by
  unfold nextPos
  rw [decode_varint_shift pre l k]
  exact skip_field_shift pre l (decode_varint l k).2 ((decode_varint l k).1 &&& 0x7)

theorem enumFields_shift (pre l : List Nat) (k : Nat) :
    enumFields (pre ++ l) (pre.length + k) = enumFields l k := by
  by_cases hk : k < l.length
  · have hk' : pre.length + k < (pre ++ l).length := by
      rw [List.length_append]; omega
    have hdv := decode_varint_shift pre l k
    cases hnp : nextPos l k with
    | some p' =>
      have hnp' : nextPos (pre ++ l) (pre.length + k) = some (pre.length + p') := by
        rw [nextPos_shift pre l k, hnp]
        rfl
      rw [enumFields_step_some hk' hnp', enumFields_step_some hk hnp, hdv]
      have := enumFields_shift pre l p'
      rw [this]
    | none =>
      have hnp' : nextPos (pre ++ l) (pre.length + k) = none := by
        rw [nextPos_shift pre l k, hnp]
        rfl
      rw [enumFields_step_none hk' hnp', enumFields_step_none hk hnp, hdv]
  · have hk' : ¬ pre.length + k < (pre ++ l).length := by
      rw [List.length_append]; omega
    rw [enumFields_stop hk', enumFields_stop hk]
termination_by l.length - k
decreasing_by
  have := nextPos_progress hk hnp
  omega

/-! ### Tags and per-wire-type behaviour of `skip_field` -/

theorem tag_lor_eq_add (num wt : Nat) (h : wt < 8) :
    (num <<< 3) ||| wt = wt + num * 8 := by
  rw [Nat.lor_comm]
  have h' : wt < 2 ^ 3 := by norm_num; omega
  have he := lor_shl_eq_add (r := wt) (m := num) (s := 3) h'
  norm_num at he
  exact he

/-- The enumerator's `tag >> 3` recovers the field number of a tag. -/
theorem tag_shiftRight (num wt : Nat) (h : wt < 8) :
    ((num <<< 3) ||| wt) >>> 3 = num := by
  rw [tag_lor_eq_add num wt h, Nat.shiftRight_eq_div_pow]
  norm_num
  omega

/-- The enumerator's `tag & 0x7` recovers the wire type of a tag. -/
theorem tag_and7 (num wt : Nat) (h : wt < 8) :
    ((num <<< 3) ||| wt) &&& 0x7 = wt := by
  rw [tag_lor_eq_add num wt h,
    show (0x7 : Nat) = 2 ^ 3 - 1 by norm_num, Nat.and_pow_two_sub_one_eq_mod]
  norm_num
  omega

theorem skip_field_wt0 (data : List Nat) (pos : Nat) :
    skip_field data pos 0 = some (skipVarintScan data pos + 1) := by
  simp [skip_field]

theorem skip_field_wt1 (data : List Nat) (pos : Nat) :
    skip_field data pos 1 = some (pos + 8) := by
  simp [skip_field]

theorem skip_field_wt2 (data : List Nat) (pos : Nat) :
    skip_field data pos 2 =
      some ((decode_varint data pos).2 + (decode_varint data pos).1) := by
  simp [skip_field]

theorem skip_field_wt5 (data : List Nat) (pos : Nat) :
    skip_field data pos 5 = some (pos + 4) := by
  simp [skip_field]

theorem skip_field_other (data : List Nat) (pos : Nat) {wt : Nat}
    (h0 : wt ≠ 0) (h1 : wt ≠ 1) (h2 : wt ≠ 2) (h5 : wt ≠ 5) :
    skip_field data pos wt = none := by
  simp [skip_field, h0, h1, h2, h5]

/-! ### The enumerator over well-formed encoded fields -/

/-- Restarting the enumerator at the end of a consumed front segment
enumerates the tail buffer. -/
theorem enumFields_tail (front rest : List Nat) :
    enumFields (front ++ rest) front.length = enumFields rest 0 := by
  have h := enumFields_shift front rest 0
  simpa using h

/-- Consuming one well-formed encoded field: the enumerator records its field
number and continues at the start of the rest of the buffer. -/
theorem enumFields_encodeField (num : Nat) (p : FieldPayload)
    (hf : wellFormedField (num, p)) (rest : List Nat) :
    enumFields (encodeField (num, p) ++ rest) 0 = num :: enumFields rest 0 := by
  cases p with
  | varintP v =>
    have hds : encodeField (num, .varintP v) ++ rest
        = encode_varint ((num <<< 3) ||| 0) ++ (encode_varint v ++ rest) := by
      simp [encodeField, wireTypeOf, payloadBytes]
    rw [hds]
    have hdv := decode_varint_encode_nil ((num <<< 3) ||| 0) (encode_varint v ++ rest)
    have hdv1 : (decode_varint (encode_varint ((num <<< 3) ||| 0)
        ++ (encode_varint v ++ rest)) 0).1 = (num <<< 3) ||| 0 := by rw [hdv]
    have hdv2 : (decode_varint (encode_varint ((num <<< 3) ||| 0)
        ++ (encode_varint v ++ rest)) 0).2
        = (encode_varint ((num <<< 3) ||| 0)).length := by rw [hdv]
    have hlen0 : 0 < (encode_varint ((num <<< 3) ||| 0)
        ++ (encode_varint v ++ rest)).length := by
      rw [List.length_append]
      have := encode_varint_length_pos ((num <<< 3) ||| 0)
      omega
    have hnext : nextPos (encode_varint ((num <<< 3) ||| 0)
        ++ (encode_varint v ++ rest)) 0
        = some ((encode_varint ((num <<< 3) ||| 0)).length
            + (encode_varint v).length) := by
      unfold nextPos
      rw [hdv1, hdv2, tag_and7 num 0 (by norm_num), skip_field_wt0,
        skipVarintScan_encode v (encode_varint ((num <<< 3) ||| 0)) rest]
      have := encode_varint_length_pos v
      congr 1
      omega
    rw [enumFields_step_some hlen0 hnext, hdv1, tag_shiftRight num 0 (by norm_num)]
    congr 1
    have ht := enumFields_tail (encode_varint ((num <<< 3) ||| 0) ++ encode_varint v) rest
    rw [List.append_assoc, List.length_append] at ht
    exact ht
  | fixed64P bs =>
    have hbs : bs.length = 8 := hf
    have hds : encodeField (num, .fixed64P bs) ++ rest
        = encode_varint ((num <<< 3) ||| 1) ++ (bs ++ rest) := by
      simp [encodeField, wireTypeOf, payloadBytes]
    rw [hds]
    have hdv := decode_varint_encode_nil ((num <<< 3) ||| 1) (bs ++ rest)
    have hdv1 : (decode_varint (encode_varint ((num <<< 3) ||| 1)
        ++ (bs ++ rest)) 0).1 = (num <<< 3) ||| 1 := by rw [hdv]
    have hdv2 : (decode_varint (encode_varint ((num <<< 3) ||| 1)
        ++ (bs ++ rest)) 0).2 = (encode_varint ((num <<< 3) ||| 1)).length := by
      rw [hdv]
    have hlen0 : 0 < (encode_varint ((num <<< 3) ||| 1) ++ (bs ++ rest)).length := by
      rw [List.length_append]
      have := encode_varint_length_pos ((num <<< 3) ||| 1)
      omega
    have hnext : nextPos (encode_varint ((num <<< 3) ||| 1) ++ (bs ++ rest)) 0
        = some ((encode_varint ((num <<< 3) ||| 1)).length + bs.length) := by
      unfold nextPos
      rw [hdv1, hdv2, tag_and7 num 1 (by norm_num), skip_field_wt1, hbs]
    rw [enumFields_step_some hlen0 hnext, hdv1, tag_shiftRight num 1 (by norm_num)]
    congr 1
    have ht := enumFields_tail (encode_varint ((num <<< 3) ||| 1) ++ bs) rest
    rw [List.append_assoc, List.length_append] at ht
    exact ht
  | lenP bs =>
    have hds : encodeField (num, .lenP bs) ++ rest
        = encode_varint ((num <<< 3) ||| 2)
            ++ (encode_varint bs.length ++ (bs ++ rest)) := by
      simp [encodeField, wireTypeOf, payloadBytes]
    rw [hds]
    have hdv := decode_varint_encode_nil ((num <<< 3) ||| 2)
      (encode_varint bs.length ++ (bs ++ rest))
    have hdv1 : (decode_varint (encode_varint ((num <<< 3) ||| 2)
        ++ (encode_varint bs.length ++ (bs ++ rest))) 0).1 = (num <<< 3) ||| 2 := by
      rw [hdv]
    have hdv2 : (decode_varint (encode_varint ((num <<< 3) ||| 2)
        ++ (encode_varint bs.length ++ (bs ++ rest))) 0).2
        = (encode_varint ((num <<< 3) ||| 2)).length := by
      rw [hdv]
    have hlen0 : 0 < (encode_varint ((num <<< 3) ||| 2)
        ++ (encode_varint bs.length ++ (bs ++ rest))).length := by
      rw [List.length_append]
      have := encode_varint_length_pos ((num <<< 3) ||| 2)
      omega
    have hdvl := decode_varint_encode bs.length (encode_varint ((num <<< 3) ||| 2))
      (bs ++ rest)
    have hdvl1 : (decode_varint (encode_varint ((num <<< 3) ||| 2)
        ++ (encode_varint bs.length ++ (bs ++ rest)))
          (encode_varint ((num <<< 3) ||| 2)).length).1 = bs.length := by rw [hdvl]
    have hdvl2 : (decode_varint (encode_varint ((num <<< 3) ||| 2)
        ++ (encode_varint bs.length ++ (bs ++ rest)))
          (encode_varint ((num <<< 3) ||| 2)).length).2
        = (encode_varint ((num <<< 3) ||| 2)).length
            + (encode_varint bs.length).length := by rw [hdvl]
    have hnext : nextPos (encode_varint ((num <<< 3) ||| 2)
        ++ (encode_varint bs.length ++ (bs ++ rest))) 0
        = some ((encode_varint ((num <<< 3) ||| 2)).length
            + ((encode_varint bs.length).length + bs.length)) := by
      unfold nextPos
      rw [hdv1, hdv2, tag_and7 num 2 (by norm_num), skip_field_wt2, hdvl1, hdvl2]
      congr 1
      omega
    rw [enumFields_step_some hlen0 hnext, hdv1, tag_shiftRight num 2 (by norm_num)]
    congr 1
    have ht := enumFields_tail (encode_varint ((num <<< 3) ||| 2)
      ++ (encode_varint bs.length ++ bs)) rest
    rw [List.append_assoc, List.append_assoc, List.length_append, List.length_append] at ht
    rw [← List.append_assoc] at ht
    rw [List.append_assoc] at ht
    exact ht
  | fixed32P bs =>
    have hbs : bs.length = 4 := hf
    have hds : encodeField (num, .fixed32P bs) ++ rest
        = encode_varint ((num <<< 3) ||| 5) ++ (bs ++ rest) := by
      simp [encodeField, wireTypeOf, payloadBytes]
    rw [hds]
    have hdv := decode_varint_encode_nil ((num <<< 3) ||| 5) (bs ++ rest)
    have hdv1 : (decode_varint (encode_varint ((num <<< 3) ||| 5)
        ++ (bs ++ rest)) 0).1 = (num <<< 3) ||| 5 := by rw [hdv]
    have hdv2 : (decode_varint (encode_varint ((num <<< 3) ||| 5)
        ++ (bs ++ rest)) 0).2 = (encode_varint ((num <<< 3) ||| 5)).length := by
      rw [hdv]
    have hlen0 : 0 < (encode_varint ((num <<< 3) ||| 5) ++ (bs ++ rest)).length := by
      rw [List.length_append]
      have := encode_varint_length_pos ((num <<< 3) ||| 5)
      omega
    have hnext : nextPos (encode_varint ((num <<< 3) ||| 5) ++ (bs ++ rest)) 0
        = some ((encode_varint ((num <<< 3) ||| 5)).length + bs.length) := by
      unfold nextPos
      rw [hdv1, hdv2, tag_and7 num 5 (by norm_num), skip_field_wt5, hbs]
    rw [enumFields_step_some hlen0 hnext, hdv1, tag_shiftRight num 5 (by norm_num)]
    congr 1
    have ht := enumFields_tail (encode_varint ((num <<< 3) ||| 5) ++ bs) rest
    rw [List.append_assoc, List.length_append] at ht
    exact ht

/-- Consuming a well-formed encoded packet placed before an arbitrary tail:
the enumerator lists the packet's field numbers and then enumerates the tail. -/
theorem enumFields_encodeFields (fs : List (Nat × FieldPayload))
    (hfs : ∀ f ∈ fs, wellFormedField f) (tail : List Nat) :
    enumFields (encodeFields fs ++ tail) 0 = fs.map Prod.fst ++ enumFields tail 0 := by
  induction fs with
  | nil => simp [encodeFields]
  | cons f fs ih =>
    obtain ⟨num, p⟩ := f
    have hshape : encodeFields ((num, p) :: fs) ++ tail
        = encodeField (num, p) ++ (encodeFields fs ++ tail) := by
      simp [encodeFields]
    rw [hshape,
      enumFields_encodeField num p (hfs _ (by simp)) (encodeFields fs ++ tail),
      ih (fun f hf => hfs f (by simp [hf]))]
    simp

/-! ### Truncated varints: every byte has the continuation bit set -/

theorem decodeVarintAux_allCont (data : List Nat) (pos r s : Nat)
    (hr : r < 2 ^ s) (h1 : pos ≤ data.length)
    (h2 : ∀ i, pos ≤ i → i < data.length → data.getD i 0 &&& 0x80 ≠ 0) :
    decodeVarintAux data pos r s =
      (r + varintAccum (data.drop pos) * 2 ^ s, data.length) := by
  by_cases h : pos < data.length
  · have hc := h2 pos (le_refl pos) h
    rw [decodeVarintAux_cont h hc, lor_shl_eq_add hr]
    have hb : data.getD pos 0 &&& 0x7f ≤ 127 := by
      rw [and_127_eq_mod]; omega
    have hr' : r + (data.getD pos 0 &&& 0x7f) * 2 ^ s < 2 ^ (s + 7) := by
      have hp : (2 : Nat) ^ (s + 7) = 2 ^ s * 128 := by rw [pow_add]; norm_num
      have hmul : (data.getD pos 0 &&& 0x7f) * 2 ^ s ≤ 127 * 2 ^ s :=
        Nat.mul_le_mul_right _ hb
      omega
    rw [decodeVarintAux_allCont data (pos + 1) _ (s + 7) hr' (by omega)
      (fun i hi hl => h2 i (by omega) hl)]
    have hdrop : data.drop pos = data.getD pos 0 :: data.drop (pos + 1) := by
      rw [getD_of_lt data h]
      exact List.drop_eq_getElem_cons h
    rw [hdrop]
    simp only [varintAccum, Prod.mk.injEq]
    refine ⟨?_, trivial⟩
    rw [pow_add]
    ring
  · have hpos : pos = data.length := by omega
    rw [decodeVarintAux_stop h, hpos, List.drop_length]
    simp [varintAccum]
termination_by data.length - pos
decreasing_by omega

theorem skipVarintScan_allCont (data : List Nat) (pos : Nat) (h1 : pos ≤ data.length)
    (h2 : ∀ i, pos ≤ i → i < data.length → data.getD i 0 &&& 0x80 ≠ 0) :
    skipVarintScan data pos = data.length := by
  by_cases h : pos < data.length
  · rw [skipVarintScan_step ⟨h, h2 pos (le_refl pos) h⟩]
    exact skipVarintScan_allCont data (pos + 1) (by omega)
      (fun i hi hl => h2 i (by omega) hl)
  · rw [skipVarintScan_stop (fun hc => h hc.1)]
    omega
termination_by data.length - pos
decreasing_by omega

/-! ### Evaluating `encode_varint` on small values -/

theorem encode_varint_small {n : Nat} (h : n < 128) : encode_varint n = [n] := by
  rw [encode_varint, if_pos h]

theorem encode_varint_two {n : Nat} (h1 : 128 ≤ n) (h2 : n < 16384) :
    encode_varint n = [n % 128 + 128, n / 128] := by
  rw [encode_varint, if_neg (by omega), encode_varint_small (by omega)]

/-- The wire-type-0 scan stops at the first byte whose continuation bit is
clear: `k` bytes of set continuation bits, then a terminator. -/
theorem skipVarintScan_terminator (data : List Nat) (k pos : Nat)
    (hk : pos + k < data.length)
    (hterm : data.getD (pos + k) 0 &&& 0x80 = 0)
    (hcont : ∀ j, j < k → data.getD (pos + j) 0 &&& 0x80 ≠ 0) :
    skipVarintScan data pos = pos + k := by
  cases k with
  | zero =>
    rw [skipVarintScan_stop (fun hc => hc.2 (by simpa using hterm))]
    omega
  | succ k' =>
    have hc0 := hcont 0 (by omega)
    rw [skipVarintScan_step ⟨by omega, by simpa using hc0⟩]
    have hterm' : data.getD ((pos + 1) + k') 0 &&& 0x80 = 0 := by
      rw [show (pos + 1) + k' = pos + (k' + 1) by omega]
      exact hterm
    have hcont' : ∀ j, j < k' → data.getD ((pos + 1) + j) 0 &&& 0x80 ≠ 0 := by
      intro j hj
      rw [show (pos + 1) + j = pos + (j + 1) by omega]
      exact hcont (j + 1) (by omega)
    rw [skipVarintScan_terminator data k' (pos + 1) (by omega) hterm' hcont']
    omega

/-! ### The claims -/

/-- C1: for every well-formed buffer of concatenated (tag, payload) pairs with
wire types in {0, 1, 2, 5} and payloads inside the buffer, the raw field
enumerator of `print_packet` returns exactly the field numbers present on the
wire, in first-occurrence order, dropping none and inventing none. -/
theorem c1_raw_enumerator_exact (fs : List (Nat × FieldPayload))
    (hfs : ∀ f ∈ fs, wellFormedField f) :
    field_numbers (encodeFields fs) = fs.map Prod.fst := by
  unfold field_numbers
  have h := enumFields_encodeFields fs hfs []
  rw [List.append_nil] at h
  rw [h, enumFields_stop (show ¬ (0 : Nat) < ([] : List Nat).length by simp)]
  simp

/-- C1 witness: the spec's scenario buffer — field 1 as varint 300 then field 2
as a 3-byte length-delimited payload — enumerates to [1, 2], and decoding
field 1's payload (offset 1) yields 300. -/
theorem c1_raw_enumerator_exact_witness :
    field_numbers (encodeFields [(1, FieldPayload.varintP 300),
        (2, FieldPayload.lenP [97, 98, 99])]) = [1, 2] ∧
    decode_varint (encodeFields [(1, FieldPayload.varintP 300),
        (2, FieldPayload.lenP [97, 98, 99])]) 1 = (300, 3) := by
  constructor
  · exact c1_raw_enumerator_exact
      [(1, FieldPayload.varintP 300), (2, FieldPayload.lenP [97, 98, 99])] (by decide)
  · have he : encodeFields [(1, FieldPayload.varintP 300),
        (2, FieldPayload.lenP [97, 98, 99])] = [8, 172, 2, 18, 3, 97, 98, 99] := by
      have e1 : encode_varint 8 = [8] := encode_varint_small (by decide)
      have e2 : encode_varint 300 = [172, 2] := by
        rw [encode_varint_two (by decide) (by decide)]
      have e3 : encode_varint 18 = [18] := encode_varint_small (by decide)
      have e4 : encode_varint 3 = [3] := encode_varint_small (by decide)
      simp [encodeFields, encodeField, payloadBytes, wireTypeOf, e1, e2, e3, e4]
    rw [he]
    simp [decode_varint, decodeVarintAux] <;> decide

/-- C2: encoding any unsigned integer as a base-128 little-endian varint and
decoding the result from offset 0 returns the original value and the offset
immediately after the varint (boundary values 127, 128, 16383, 16384 are
instances of the universally quantified statement). -/
theorem c2_varint_roundtrip (n : Nat) :
    decode_varint (encode_varint n) 0 = (n, (encode_varint n).length) := by
  have h := decode_varint_encode_nil n []
  rwa [List.append_nil] at h

/-- C3: `skip_field` follows the per-wire-type policy — for wire type 0 it
scans past `k` continuation bytes and one terminator byte; for type 1 it
advances 8 bytes; for type 2 it decodes a varint length and advances that many
bytes past the length varint; for type 5 it advances 4 bytes; any other wire
type signals a decode error (`none`) instead of returning an offset. -/
theorem c3_skip_field_policy (data : List Nat) (pos k : Nat)
    (hk : pos + k < data.length)
    (hterm : data.getD (pos + k) 0 &&& 0x80 = 0)
    (hcont : ∀ j, j < k → data.getD (pos + j) 0 &&& 0x80 ≠ 0) :
    skip_field data pos 0 = some (pos + k + 1) ∧
    skip_field data pos 1 = some (pos + 8) ∧
    skip_field data pos 2 =
      some ((decode_varint data pos).2 + (decode_varint data pos).1) ∧
    skip_field data pos 5 = some (pos + 4) ∧
    (∀ wt, wt ≠ 0 → wt ≠ 1 → wt ≠ 2 → wt ≠ 5 → skip_field data pos wt = none) := by
  refine ⟨?_, skip_field_wt1 data pos, skip_field_wt2 data pos,
    skip_field_wt5 data pos,
    fun wt h0 h1 h2 h5 => skip_field_other data pos h0 h1 h2 h5⟩
  rw [skip_field_wt0, skipVarintScan_terminator data k pos hk hterm hcont]

/-- C3 witness: on the two-byte varint `80 01` the skipper advances past both
bytes, and wire type 3 is a decode error. -/
theorem c3_skip_field_policy_witness :
    skip_field [0x80, 0x01] 0 0 = some 2 ∧ skip_field [0x80, 0x01] 0 3 = none := by
  have h := c3_skip_field_policy [0x80, 0x01] 0 1 (by decide) (by decide)
    (by intro j hj
        have hj0 : j = 0 := by omega
        subst hj0
        decide)
  exact ⟨h.1, h.2.2.2.2 3 (by decide) (by decide) (by decide) (by decide)⟩

/-- C4: on a buffer that is a well-formed packet followed by a malformed field
— either a tag with an unrecognized wire type, or a length-delimited field
whose declared length runs past the buffer end — the enumerator loop stops
(the modelled exception never escapes it) and returns the field numbers
collected up to and including the offending tag. -/
theorem c4_malformed_enumeration (fs : List (Nat × FieldPayload))
    (hfs : ∀ f ∈ fs, wellFormedField f) (num wt : Nat) (hwt8 : wt < 8)
    (h0 : wt ≠ 0) (h1 : wt ≠ 1) (h2 : wt ≠ 2) (h5 : wt ≠ 5)
    (junk short : List Nat) (L : Nat) (hL : short.length < L) :
    field_numbers (encodeFields fs ++ (encode_varint ((num <<< 3) ||| wt) ++ junk))
      = fs.map Prod.fst ++ [num] ∧
    field_numbers (encodeFields fs
        ++ (encode_varint ((num <<< 3) ||| 2) ++ (encode_varint L ++ short)))
      = fs.map Prod.fst ++ [num] := by
  constructor
  · unfold field_numbers
    rw [enumFields_encodeFields fs hfs _]
    congr 1
    have hdv := decode_varint_encode_nil ((num <<< 3) ||| wt) junk
    have hdv1 : (decode_varint (encode_varint ((num <<< 3) ||| wt) ++ junk) 0).1
        = (num <<< 3) ||| wt := by rw [hdv]
    have hdv2 : (decode_varint (encode_varint ((num <<< 3) ||| wt) ++ junk) 0).2
        = (encode_varint ((num <<< 3) ||| wt)).length := by rw [hdv]
    have hlen0 : 0 < (encode_varint ((num <<< 3) ||| wt) ++ junk).length := by
      rw [List.length_append]
      have := encode_varint_length_pos ((num <<< 3) ||| wt)
      omega
    have hnone : nextPos (encode_varint ((num <<< 3) ||| wt) ++ junk) 0 = none := by
      unfold nextPos
      rw [hdv1, hdv2, tag_and7 num wt hwt8]
      exact skip_field_other _ _ h0 h1 h2 h5
    rw [enumFields_step_none hlen0 hnone, hdv1, tag_shiftRight num wt hwt8]
  · unfold field_numbers
    rw [enumFields_encodeFields fs hfs _]
    congr 1
    have hdv := decode_varint_encode_nil ((num <<< 3) ||| 2) (encode_varint L ++ short)
    have hdv1 : (decode_varint (encode_varint ((num <<< 3) ||| 2)
        ++ (encode_varint L ++ short)) 0).1 = (num <<< 3) ||| 2 := by rw [hdv]
    have hdv2 : (decode_varint (encode_varint ((num <<< 3) ||| 2)
        ++ (encode_varint L ++ short)) 0).2
        = (encode_varint ((num <<< 3) ||| 2)).length := by rw [hdv]
    have hlen0 : 0 < (encode_varint ((num <<< 3) ||| 2)
        ++ (encode_varint L ++ short)).length := by
      rw [List.length_append]
      have := encode_varint_length_pos ((num <<< 3) ||| 2)
      omega
    have hdvL := decode_varint_encode L (encode_varint ((num <<< 3) ||| 2)) short
    have hdvL1 : (decode_varint (encode_varint ((num <<< 3) ||| 2)
        ++ (encode_varint L ++ short))
          (encode_varint ((num <<< 3) ||| 2)).length).1 = L := by rw [hdvL]
    have hdvL2 : (decode_varint (encode_varint ((num <<< 3) ||| 2)
        ++ (encode_varint L ++ short))
          (encode_varint ((num <<< 3) ||| 2)).length).2
        = (encode_varint ((num <<< 3) ||| 2)).length
            + (encode_varint L).length := by rw [hdvL]
    have hsome : nextPos (encode_varint ((num <<< 3) ||| 2)
        ++ (encode_varint L ++ short)) 0
        = some ((encode_varint ((num <<< 3) ||| 2)).length
            + (encode_varint L).length + L) := by
      unfold nextPos
      rw [hdv1, hdv2, tag_and7 num 2 (by norm_num), skip_field_wt2, hdvL1, hdvL2]
    rw [enumFields_step_some hlen0 hsome, hdv1, tag_shiftRight num 2 (by norm_num)]
    have hstop : ¬ ((encode_varint ((num <<< 3) ||| 2)).length
        + (encode_varint L).length + L
        < (encode_varint ((num <<< 3) ||| 2)
            ++ (encode_varint L ++ short)).length) := by
      rw [List.length_append, List.length_append]
      omega
    rw [enumFields_stop hstop]

/-- C4 witness: a well-formed field 1 followed by, respectively, a field-2 tag
with wire type 3 and a field-2 length-delimited field declaring 5 bytes with
only 1 byte left; both enumerate to [1, 2]. -/
theorem c4_malformed_enumeration_witness :
    field_numbers (encodeFields [(1, FieldPayload.varintP 0)]
        ++ (encode_varint ((2 <<< 3) ||| 3) ++ [7])) = [1, 2] ∧
    field_numbers (encodeFields [(1, FieldPayload.varintP 0)]
        ++ (encode_varint ((2 <<< 3) ||| 2) ++ (encode_varint 5 ++ [9]))) = [1, 2] :=
  c4_malformed_enumeration [(1, FieldPayload.varintP 0)] (by decide) 2 3
    (by decide) (by decide) (by decide) (by decide) (by decide) [7] [9] 5 (by decide)

/-- C5: against the fixed allow-list {8, 10, 13, 11, 60, 12}, the unknown-field
report contains exactly the field numbers on the wire that are outside the
allow-list, de-duplicated and sorted strictly increasing, and the report line
is emitted exactly when that difference is non-empty. -/
theorem c5_unknown_field_report (fns : List Nat) :
    (∀ f, f ∈ sorted_unknown fns ↔ f ∈ fns ∧ f ∉ known_field_nums) ∧
    List.Sorted (· < ·) (sorted_unknown fns) ∧
    (emits_report fns = true ↔ ∃ f ∈ fns, f ∉ known_field_nums) := by
  refine ⟨?_, ?_, ?_⟩
  · intro f
    simp [sorted_unknown, unknown_fields]
  · unfold sorted_unknown
    exact Finset.sort_sorted_lt _
  · constructor
    · intro hb
      have hne : unknown_fields fns ≠ [] := by
        intro hnil
        rw [emits_report, hnil] at hb
        simp at hb
      obtain ⟨f, hf⟩ := List.exists_mem_of_ne_nil _ hne
      rw [unknown_fields, List.mem_filter] at hf
      exact ⟨f, hf.1, by simpa using hf.2⟩
    · intro hex
      obtain ⟨f, hfm, hfk⟩ := hex
      have hf : f ∈ unknown_fields fns := by
        rw [unknown_fields, List.mem_filter]
        exact ⟨hfm, by simpa using hfk⟩
      rw [emits_report]
      simpa using List.ne_nil_of_mem hf

/-- C6: when every byte from `pos` to the end of the buffer has the
continuation bit set, `decode_varint` stops at the buffer boundary without
raising and returns the partial value accumulated from the bytes read,
paired with the buffer length. -/
theorem c6_truncated_varint (data : List Nat) (pos : Nat) (h1 : pos ≤ data.length)
    (h2 : ∀ i, pos ≤ i → i < data.length → data.getD i 0 &&& 0x80 ≠ 0) :
    decode_varint data pos = (varintAccum (data.drop pos), data.length) := by
  unfold decode_varint
  have h := decodeVarintAux_allCont data pos 0 0 (by norm_num) h1 h2
  simpa using h

/-- C6 witness: the two-byte buffer `80 81`, both continuation bits set,
decodes from offset 0 to its accumulated partial value and offset 2. -/
theorem c6_truncated_varint_witness :
    decode_varint [0x80, 0x81] 0
      = (varintAccum ([0x80, 0x81].drop 0), [0x80, 0x81].length) :=
  c6_truncated_varint [0x80, 0x81] 0 (by decide)
    (by intro i hi hl
        have hl2 : i < 2 := by simpa using hl
        have h01 : i = 0 ∨ i = 1 := by omega
        rcases h01 with h | h <;> subst h <;> decide)

/-- C7: the raw field enumeration is a deterministic function of the buffer
bytes alone — equal buffers give equal field-number sequences. -/
theorem c7_enumeration_deterministic (d1 d2 : List Nat) (h : d1 = d2) :
    field_numbers d1 = field_numbers d2 := by
  rw [h]

/-- C7 witness: the same concrete buffer enumerated twice. -/
theorem c7_enumeration_deterministic_witness :
    field_numbers [8, 0] = field_numbers [8, 0] :=
  c7_enumeration_deterministic [8, 0] [8, 0] rfl

/-- C8: a sequence-flags value with bit 0 and bit 1 both set renders both
named flags, in declaration order. -/
theorem c8_sequence_flags_render (flags : Nat) (h0 : flags &&& 1 ≠ 0)
    (h1 : flags &&& 2 ≠ 0) :
    sequence_flag_names flags
      = ["INCREMENTAL_STATE_CLEARED", "NEEDS_INCREMENTAL_STATE"] := by
  unfold sequence_flag_names
  rw [if_pos h0, if_pos h1]
  rfl

/-- C8 witness: flags value 3. -/
theorem c8_sequence_flags_render_witness :
    sequence_flag_names 3
      = ["INCREMENTAL_STATE_CLEARED", "NEEDS_INCREMENTAL_STATE"] :=
  c8_sequence_flags_render 3 (by decide) (by decide)

/-- C9: the enumerator loop terminates because every iteration that starts
strictly inside the buffer makes strict progress — the tag varint consumes at
least one byte and a successful skip never returns an offset at or below the
iteration's starting offset. -/
theorem c9_loop_progress (data : List Nat) (pos : Nat) (h : pos < data.length) :
    pos < (decode_varint data pos).2 ∧
    (∀ pos', nextPos data pos = some pos' → pos < pos') :=
  ⟨decode_varint_pos_lt h, fun _ hs => nextPos_progress h hs⟩

/-- C9 witness: progress on a concrete one-field buffer. -/
theorem c9_loop_progress_witness : 0 < (decode_varint [8, 0] 0).2 :=
  (c9_loop_progress [8, 0] 0 (by decide)).1

/-- C10: `decode_varint` is total — at or past the buffer end it returns value
0 and the unchanged offset; `skip_field` never signals an error on wire types
0, 1, 2, 5; and on a varint field truncated at the buffer end it returns the
buffer length plus one, an offset past the end of the buffer. -/
theorem c10_total_no_raise :
    (∀ (data : List Nat) (pos : Nat), data.length ≤ pos →
      decode_varint data pos = (0, pos)) ∧
    (∀ (data : List Nat) (pos wt : Nat), wt = 0 ∨ wt = 1 ∨ wt = 2 ∨ wt = 5 →
      (skip_field data pos wt).isSome = true) ∧
    (∀ (data : List Nat) (pos : Nat), pos ≤ data.length →
      (∀ i, pos ≤ i → i < data.length → data.getD i 0 &&& 0x80 ≠ 0) →
      skip_field data pos 0 = some (data.length + 1)) := by
  refine ⟨?_, ?_, ?_⟩
  · intro data pos h
    unfold decode_varint
    exact decodeVarintAux_stop (by omega) 0 0
  · intro data pos wt h
    rcases h with h | h | h | h <;> subst h
    · rw [skip_field_wt0]; rfl
    · rw [skip_field_wt1]; rfl
    · rw [skip_field_wt2]; rfl
    · rw [skip_field_wt5]; rfl
  · intro data pos hle hcont
    rw [skip_field_wt0, skipVarintScan_allCont data pos hle hcont]

/-- C10 witness: decoding past the end of a buffer, skipping with wire type 2
on an empty buffer, and skipping a truncated varint field that yields offset
2 on a 1-byte buffer. -/
theorem c10_total_no_raise_witness :
    decode_varint [5] 3 = (0, 3) ∧ (skip_field [] 0 2).isSome = true ∧
    skip_field [0x80] 0 0 = some 2 := by
  refine ⟨c10_total_no_raise.1 [5] 3 (by decide),
    c10_total_no_raise.2.1 [] 0 2 (Or.inr (Or.inr (Or.inl rfl))), ?_⟩
  exact c10_total_no_raise.2.2 [0x80] 0 (by decide)
    (by intro i hi hl
        have h1 : i < 1 := by simpa using hl
        have h0 : i = 0 := by omega
        subst h0
        decide)
